import Mathlib

/-!
Verification of core algorithms of the chemfiles text-format layer.

Each definition is a shallow embedding of a function from the C++ sources:
* `src/src/formats/LAMMPSData.cpp` — interaction-type canonicalization
  (`normalize_bond_type`, `normalize_angle_type`, `normalize_dihedral_type`,
  `normalize_improper_type`) and molecule grouping (`guess_molecules`);
* `src/src/formats/PDB.cpp` — CONECT atom-id remapping (`read_CONECT`'s
  `read_index` lambda) and `link_standard_residue_bonds`;
* `src/src/formats/GRO.cpp` / `src/src/formats/SDF.cpp` — the frame-boundary
  scanners `GROFormat::forward` and `SDFFormat::forward`;
* `src/src/Format.cpp` — the `TextFormat` step-index state machine
  (`scan_all`, `read_step`, `read`, `write`, `nsteps`).

`size_t` values are modelled as `Nat` (with an explicit `% 2 ^ 64` where the
C++ subtraction may wrap) and fallible operations as `Except`/`Option`.
`tilt_factor` is deliberately not embedded: every other function here is
exact integer/string manipulation, while `tilt_factor`'s while-loops
compute on IEEE-754 `double`s and their termination depends on rounding
(an exact-arithmetic model would terminate on inputs where the program
does not), so no faithful shallow embedding is attempted for it.
-/

namespace Chemfiles

/-! ## LAMMPS data: interaction-type canonicalization

Embedding of the four `static ... normalize_*_type` functions of
`src/src/formats/LAMMPSData.cpp`.  Atom-type ids are `Nat`.
-/

/-- `normalize_bond_type(i, j)`: `(min(i,j), max(i,j))`. -/
def normalize_bond_type (i j : ℕ) : ℕ × ℕ :=
  if i < j then (i, j) else (j, i)

/-- `normalize_angle_type(i, j, k)`: orient so the smaller end comes first. -/
def normalize_angle_type (i j k : ℕ) : ℕ × ℕ × ℕ :=
  if i < k then (i, j, k) else (k, j, i)

/-- `normalize_dihedral_type(i, j, k, m)`: compare `max(i,j)` with `max(k,m)`,
breaking ties with `min(i,j)` vs `min(k,m)`; keep or reverse the 4-chain. -/
def normalize_dihedral_type (i j k m : ℕ) : ℕ × ℕ × ℕ × ℕ :=
  let max_ij := max i j
  let max_km := max k m
  if max_ij = max_km then
    if min i j < min k m then (i, j, k, m) else (m, k, j, i)
  else if max_ij < max_km then (i, j, k, m)
  else (m, k, j, i)

/-- `normalize_improper_type(i, j, k, m)`: sort `{i, k, m}` ascending around
the fixed central atom `j` (the `std::sort` over a 3-element array). -/
def normalize_improper_type (i j k m : ℕ) : ℕ × ℕ × ℕ × ℕ :=
  match List.insertionSort (· ≤ ·) [i, k, m] with
  | [a, b, c] => (a, j, b, c)
  | _ => (i, j, k, m)

lemma insertionSort_three_eq (i k m : ℕ) :
    ∃ a b c, List.insertionSort (· ≤ ·) [i, k, m] = [a, b, c] := by
  have h : (List.insertionSort (· ≤ ·) [i, k, m]).Perm [i, k, m] :=
    List.perm_insertionSort _ _
  have hlen : (List.insertionSort (· ≤ ·) [i, k, m]).length = 3 :=
    h.length_eq
  match hs : List.insertionSort (· ≤ ·) [i, k, m] with
  | [a, b, c] => exact ⟨a, b, c, rfl⟩
  | [] => rw [hs] at hlen; simp at hlen
  | [_] => rw [hs] at hlen; simp at hlen
  | [_, _] => rw [hs] at hlen; simp at hlen
  | _ :: _ :: _ :: _ :: _ => rw [hs] at hlen; simp at hlen

lemma improper_perm_invariant {i k m i' k' m' : ℕ} (j : ℕ)
    (hperm : List.Perm [i', k', m'] [i, k, m]) :
    normalize_improper_type i' j k' m' = normalize_improper_type i j k m := by
  have hp : (List.insertionSort (· ≤ ·) [i', k', m']).Perm
      (List.insertionSort (· ≤ ·) [i, k, m]) :=
    (List.perm_insertionSort _ _).trans
      (hperm.trans (List.perm_insertionSort _ _).symm)
  have hs1 : (List.insertionSort (· ≤ ·) [i', k', m']).Sorted (· ≤ ·) :=
    List.sorted_insertionSort _ _
  have hs2 : (List.insertionSort (· ≤ ·) [i, k, m]).Sorted (· ≤ ·) :=
    List.sorted_insertionSort _ _
  have hsorted : List.insertionSort (· ≤ ·) [i', k', m'] =
      List.insertionSort (· ≤ ·) [i, k, m] :=
    List.eq_of_perm_of_sorted hp hs1 hs2
  obtain ⟨a, b, c, habc⟩ := insertionSort_three_eq i k m
  unfold normalize_improper_type
  rw [hsorted, habc]

end Chemfiles

namespace Chemfiles

/-! ## Claim theorems: canonicalization (C3) -/

/-- C3 counterexample: the dihedral canonicalization is **not** symmetric
under chain reversal when `max(i,j) = max(k,m)` and `min(i,j) = min(k,m)`
but the chain is not a palindrome: `(1,2,1,2)` normalizes to `(2,1,2,1)`
while its reversal `(2,1,2,1)` normalizes to `(1,2,1,2)`. -/
theorem c3_dihedral_not_reversal_symmetric :
    normalize_dihedral_type 1 2 1 2 = (2, 1, 2, 1) ∧
    normalize_dihedral_type 2 1 2 1 = (1, 2, 1, 2) ∧
    normalize_dihedral_type 1 2 1 2 ≠ normalize_dihedral_type 2 1 2 1 := by
  refine ⟨by decide, by decide, by decide⟩

/-- C3 (amended): bond and angle canonicalization are symmetric under
reversal for all type ids; improper canonicalization is invariant under every
permutation of `(i, k, m)` around the fixed central atom `j`; dihedral
canonicalization is symmetric under reversal whenever the end pairs do not
tie on both `max` and `min` (or the chain is a palindrome) — in particular
`(1,2,3,4)` and `(4,3,2,1)` canonicalize identically, and improper
`(1,2,3,4)` and `(1,2,4,3)` with central atom `2` canonicalize
identically. -/
theorem c3_canonicalization_symmetry :
    (∀ i j : ℕ, normalize_bond_type i j = normalize_bond_type j i) ∧
    (∀ i j k : ℕ, normalize_angle_type i j k = normalize_angle_type k j i) ∧
    (∀ i j k m : ℕ, (max i j ≠ max k m ∨ min i j ≠ min k m ∨ (m = i ∧ k = j)) →
      normalize_dihedral_type i j k m = normalize_dihedral_type m k j i) ∧
    (∀ (j i k m i' k' m' : ℕ), List.Perm [i', k', m'] [i, k, m] →
      normalize_improper_type i' j k' m' = normalize_improper_type i j k m) ∧
    normalize_dihedral_type 1 2 3 4 = normalize_dihedral_type 4 3 2 1 ∧
    normalize_improper_type 1 2 3 4 = normalize_improper_type 1 2 4 3 := by
  refine ⟨?_, ?_, ?_, ?_, by decide, by decide⟩
  · intro i j
    unfold normalize_bond_type
    split <;> split <;> simp only [Prod.mk.injEq, true_and, and_true] <;> omega
  · intro i j k
    unfold normalize_angle_type
    split <;> split <;> simp only [Prod.mk.injEq, true_and, and_true] <;> omega
  · intro i j k m h
    unfold normalize_dihedral_type
    dsimp only
    rw [Nat.max_comm m k, Nat.max_comm j i, Nat.min_comm m k, Nat.min_comm j i]
    rcases Nat.le_total i j with h1 | h1 <;> rcases Nat.le_total k m with h2 | h2
    · rw [Nat.max_eq_right h1, Nat.min_eq_left h1,
         Nat.max_eq_right h2, Nat.min_eq_left h2] at h ⊢
      split_ifs <;> simp only [Prod.mk.injEq, true_and, and_true] <;> omega
    · rw [Nat.max_eq_right h1, Nat.min_eq_left h1,
         Nat.max_eq_left h2, Nat.min_eq_right h2] at h ⊢
      split_ifs <;> simp only [Prod.mk.injEq, true_and, and_true] <;> omega
    · rw [Nat.max_eq_left h1, Nat.min_eq_right h1,
         Nat.max_eq_right h2, Nat.min_eq_left h2] at h ⊢
      split_ifs <;> simp only [Prod.mk.injEq, true_and, and_true] <;> omega
    · rw [Nat.max_eq_left h1, Nat.min_eq_right h1,
         Nat.max_eq_left h2, Nat.min_eq_right h2] at h ⊢
      split_ifs <;> simp only [Prod.mk.injEq, true_and, and_true] <;> omega
  · intro j i k m i' k' m' hperm
    exact improper_perm_invariant j hperm

/-- C3 witness: the quantified/conditional parts of
`c3_canonicalization_symmetry` instantiated at concrete type ids. -/
theorem c3_canonicalization_symmetry_witness :
    normalize_bond_type 3 5 = normalize_bond_type 5 3 ∧
    normalize_angle_type 3 7 5 = normalize_angle_type 5 7 3 ∧
    normalize_dihedral_type 1 2 3 4 = normalize_dihedral_type 4 3 2 1 ∧
    normalize_improper_type 9 2 4 7 = normalize_improper_type 4 2 9 7 :=
  ⟨c3_canonicalization_symmetry.1 3 5,
   c3_canonicalization_symmetry.2.1 3 7 5,
   c3_canonicalization_symmetry.2.2.1 1 2 3 4 (by decide),
   c3_canonicalization_symmetry.2.2.2.1 2 4 9 7 9 4 7 (by decide)⟩

/-! ## PDB: CONECT atom-id remapping

Embedding of the `read_index` lambda of `PDBFormat::read_CONECT`
(`src/src/formats/PDB.cpp`):

```
auto pdb_atom_id = parse<size_t>(...);
auto lower = std::lower_bound(atom_offsets_.begin(), atom_offsets_.end(), pdb_atom_id);
pdb_atom_id -= static_cast<size_t>(lower - atom_offsets_.begin());
pdb_atom_id -= atom_offsets_.front();
```

`atom_offsets_` holds the initial baseline (first on-file atom id minus one,
pushed by `read_ATOM`) followed by the serial recorded by each numbered `TER`
record, in file order (sorted, as `lower_bound` requires).  For a sorted list
`lower_bound` returns the index of the first element not less than the query,
i.e. the length of the `takeWhile (· < x)` prefix.  The two `size_t`
subtractions wrap modulo `2 ^ 64`.
-/

/-- Index returned by `std::lower_bound` on a sorted `offsets` list. -/
def lowerBoundIdx (offsets : List ℕ) (x : ℕ) : ℕ :=
  (offsets.takeWhile (fun o => o < x)).length

/-- The CONECT id remap: `x - lower_bound(offsets, x) - offsets.front()`,
with `size_t` wrap-around made explicit. -/
def readIndex (offsets : List ℕ) (x : ℕ) : ℕ :=
  ((((x : ℤ) - lowerBoundIdx offsets x - offsets.headD 0) % (2 ^ 64 : ℤ))).toNat

/-- When no wrap occurs the remap is plain subtraction. -/
lemma readIndex_eq (offsets : List ℕ) (x : ℕ) (hx : x < 2 ^ 64)
    (h : lowerBoundIdx offsets x + offsets.headD 0 ≤ x) :
    readIndex offsets x = x - lowerBoundIdx offsets x - offsets.headD 0 := by
  unfold readIndex
  have hle : (0 : ℤ) ≤ (x : ℤ) - lowerBoundIdx offsets x - offsets.headD 0 := by
    omega
  have hlt : (x : ℤ) - lowerBoundIdx offsets x - offsets.headD 0 < (2 ^ 64 : ℤ) := by
    omega
  rw [Int.emod_eq_of_lt hle hlt]
  omega

/-- On a sorted offsets list, the `lower_bound` index is the number of
entries strictly below the query. -/
lemma lowerBoundIdx_eq_countP (offsets : List ℕ) (x : ℕ)
    (hsorted : offsets.Sorted (· ≤ ·)) :
    lowerBoundIdx offsets x = offsets.countP (fun o => o < x) := by
  induction offsets with
  | nil => rfl
  | cons o rest ih =>
      rw [List.sorted_cons] at hsorted
      by_cases h : o < x
      · unfold lowerBoundIdx at ih ⊢
        rw [List.takeWhile_cons, List.countP_cons]
        simp [h, ih hsorted.2]
      · unfold lowerBoundIdx
        rw [List.takeWhile_cons, List.countP_cons]
        have hzero : rest.countP (fun o => decide (o < x)) = 0 := by
          rw [List.countP_eq_zero]
          intro b hb
          have : o ≤ b := hsorted.1 b hb
          simp only [decide_eq_true_eq]
          omega
        simp [h, hzero]

/-- C4 counterexample: for a file with atoms `1..50`, a `TER` record with
serial `51`, and on-file numbering restarting at `1` (so
`atom_offsets_ = [0, 51]` — or `[0]` when the `TER` line carries no serial),
a CONECT reference to post-restart identifier `3` resolves to internal index
`2` (the pre-restart atom with serial 3), not `52`. -/
theorem c4_restart_remap_counterexample :
    readIndex [0, 51] 3 = 2 ∧ readIndex [0] 3 = 2 ∧ (2 : ℕ) ≠ 52 := by
  refine ⟨by decide, by decide, by decide⟩

/-- C4 (amended): each on-file atom identifier `X` is mapped to
`X - (number of recorded restart points strictly below X) - (initial restart
baseline, the first recorded offset)`, modulo `2^64`; for the file above this
compensates `TER`-consumed serials (identifier `52`, the atom right after the
serial-51 `TER`, resolves to internal index `50`) while post-restart
identifier `3` resolves to index `2`. -/
theorem c4_conect_remap (offsets : List ℕ) (x : ℕ)
    (hsorted : offsets.Sorted (· ≤ ·)) (hx : x < 2 ^ 64)
    (hw : offsets.countP (fun o => o < x) + offsets.headD 0 ≤ x) :
    readIndex offsets x = x - offsets.countP (fun o => o < x) - offsets.headD 0 ∧
    readIndex [0, 51] 52 = 50 ∧ readIndex [0, 51] 3 = 2 := by
  refine ⟨?_, by decide, by decide⟩
  have hc := lowerBoundIdx_eq_countP offsets x hsorted
  rw [← hc] at hw ⊢
  exact readIndex_eq offsets x hx hw

/-- C4 witness: the remap formula applied to the concrete offsets list
`[0, 51]` and identifier `52`. -/
theorem c4_conect_remap_witness :
    readIndex [0, 51] 52 =
      52 - ([0, 51].countP (fun o => o < 52)) - [0, 51].headD 0 :=
  (c4_conect_remap [0, 51] 52 (by simp) (by norm_num) (by decide)).1

/-! ## PDB: standard-residue bond linking

Embedding of `PDBFormat::link_standard_residue_bonds`
(`src/src/formats/PDB.cpp`).  Atom names are modelled by a finite alphabet:
`O3p`, `HO5p`, `O5p` stand for the source's three-prime-oxygen,
five-prime-hydroxyl-hydrogen and five-prime-oxygen name literals.  A residue
carries the result of the external `PDBConnectivity::find(residue.name())`
lookup (`table`), its optional numeric id, and its member atoms in residue
order as (name, frame index) pairs; `std::map` name lookup means the last
atom with a given name wins.
-/

inductive PDBName where
  | N | C | O3p | P | HO5p | O5p | other (n : ℕ)
deriving DecidableEq

structure PDBResidue where
  table : Option (List (PDBName × PDBName))
  resid : Option ℕ
  atoms : List (PDBName × ℕ)

/-- The `atom_name_to_index` map: later insertions overwrite earlier ones. -/
def nameToIndex (atoms : List (PDBName × ℕ)) (n : PDBName) : Option ℕ :=
  atoms.foldl (fun acc p => if p.1 = n then some p.2 else acc) none

structure LinkState where
  linkPeptide : Bool
  linkNucleic : Bool
  prevResId : ℕ
  prevCarboxylic : ℕ
  bonds : List (ℕ × ℕ)

def initLinkState : LinkState :=
  { linkPeptide := false, linkNucleic := false, prevResId := 0,
    prevCarboxylic := 0, bonds := [] }

/-- One iteration of the residue loop of `link_standard_residue_bonds`,
in source order: peptide-backbone check, amide-carbon tracking update,
nucleic-backbone check (the source adds the bond from the tracked atom to the
*current* residue's `O3'`, dereferencing `three_prime_oxygen`; when `O3'` is
absent that dereference is undefined behaviour in C++ and the model adds no
bond — no theorem depends on that branch), three-prime-oxygen tracking
update, the `HO5'` special case (where `operator[]` on a missing `O5'`
default-constructs index 0), then the intra-residue template bonds. -/
def linkStep (s : LinkState) (r : PDBResidue) : LinkState :=
  match r.table with
  | none => s
  | some table =>
    match r.resid with
    | none => s
    | some resid =>
      let find := fun n => nameToIndex r.atoms n
      let s :=
        match find PDBName.N with
        | some nidx =>
          if s.linkPeptide && (resid == s.prevResId + 1) then
            { s with linkPeptide := false,
                     bonds := s.bonds ++ [(s.prevCarboxylic, nidx)] }
          else s
        | none => s
      let s :=
        match find PDBName.C with
        | some cidx =>
          { s with linkPeptide := true, prevCarboxylic := cidx,
                   prevResId := resid }
        | none => s
      let s :=
        match find PDBName.P, find PDBName.O3p with
        | some _, some oidx =>
          if s.linkNucleic && (resid == s.prevResId + 1) then
            { s with linkNucleic := false,
                     bonds := s.bonds ++ [(s.prevCarboxylic, oidx)] }
          else s
        | _, _ => s
      let s :=
        match find PDBName.O3p with
        | some oidx =>
          { s with linkNucleic := true, prevCarboxylic := oidx,
                   prevResId := resid }
        | none => s
      let s :=
        match find PDBName.HO5p with
        | some hidx =>
          { s with bonds := s.bonds ++ [(hidx, (find PDBName.O5p).getD 0)] }
        | none => s
      table.foldl (fun s link =>
        match find link.1, find link.2 with
        | some a, some b => { s with bonds := s.bonds ++ [(a, b)] }
        | _, _ => s) s

/-- `link_standard_residue_bonds`: fold over residues in file order; the
result is the list of added bonds. -/
def link_standard_residue_bonds (residues : List PDBResidue) : List (ℕ × ℕ) :=
  (residues.foldl linkStep initLinkState).bonds

/-- A peptide-like residue exposing amide carbon and nitrogen. -/
def pepRes (a ci ni : ℕ) : PDBResidue :=
  { table := some [], resid := some a, atoms := [(PDBName.C, ci), (PDBName.N, ni)] }

/-- A nucleic-like residue exposing only a three-prime oxygen. -/
def nucRes (a oi : ℕ) : PDBResidue :=
  { table := some [], resid := some a, atoms := [(PDBName.O3p, oi)] }

/-- A nucleic-like residue exposing a five-prime phosphorus and a
three-prime oxygen. -/
def nucResP (a pi oi : ℕ) : PDBResidue :=
  { table := some [], resid := some a,
    atoms := [(PDBName.P, pi), (PDBName.O3p, oi)] }

/-- C5 counterexample: for two consecutive nucleic residues (ids 1 and 2,
the first exposing `O3'` at index 10, the second exposing `P` at 20 and
`O3'` at 21) the source adds the backbone bond `(10, 21)` — tracked
three-prime oxygen to the *current residue's three-prime oxygen* — and not
`(10, 20)`, the bond to the complementary five-prime phosphorus that the
claim asserts. -/
theorem c5_nucleic_endpoint_counterexample :
    link_standard_residue_bonds [nucRes 1 10, nucResP 2 20 21] = [(10, 21)] ∧
    (10, 20) ∉ link_standard_residue_bonds [nucRes 1 10, nucResP 2 20 21] := by
  refine ⟨by decide, by decide⟩

/-- C5 (amended): scanning residues in file order, an inter-residue backbone
bond is added exactly when the current residue contains the complementary
backbone atom (amide nitrogen / five-prime phosphorus) and its numeric id is
exactly one greater than the tracked id; the bond connects the tracked atom
(previous residue's amide carbon / three-prime oxygen) to the amide nitrogen
in the peptide case but to the *current residue's three-prime oxygen* in the
nucleic case; a gap produces no bond and no error.  Ids 5,6,7 with C/N atoms
give exactly the bonds 5→6 and 6→7; ids 5,6,9 give only 5→6. -/
theorem c5_backbone_linking :
    (∀ c1 n1 c2 n2 c3 n3 : ℕ,
      link_standard_residue_bonds
          [pepRes 5 c1 n1, pepRes 6 c2 n2, pepRes 7 c3 n3] =
        [(c1, n2), (c2, n3)]) ∧
    (∀ c1 n1 c2 n2 c3 n3 : ℕ,
      link_standard_residue_bonds
          [pepRes 5 c1 n1, pepRes 6 c2 n2, pepRes 9 c3 n3] =
        [(c1, n2)]) ∧
    (∀ a c1 n1 c2 n2 : ℕ,
      link_standard_residue_bonds [pepRes a c1 n1, pepRes (a + 1) c2 n2] =
        [(c1, n2)]) ∧
    (∀ a b c1 n1 c2 n2 : ℕ, b ≠ a + 1 →
      link_standard_residue_bonds [pepRes a c1 n1, pepRes b c2 n2] = []) ∧
    (∀ a o1 p2 o2 : ℕ,
      link_standard_residue_bonds [nucRes a o1, nucResP (a + 1) p2 o2] =
        [(o1, o2)]) := by
  refine ⟨?_, ?_, ?_, ?_, ?_⟩
  · intro c1 n1 c2 n2 c3 n3
    rfl
  · intro c1 n1 c2 n2 c3 n3
    rfl
  · intro a c1 n1 c2 n2
    simp [link_standard_residue_bonds, linkStep, initLinkState, nameToIndex,
      pepRes]
  · intro a b c1 n1 c2 n2 hne
    have hb : (b == a + 1) = false := by
      simp [hne]
    simp [link_standard_residue_bonds, linkStep, initLinkState, nameToIndex,
      pepRes, hb]
  · intro a o1 p2 o2
    simp [link_standard_residue_bonds, linkStep, initLinkState, nameToIndex,
      nucRes, nucResP]

/-- C5 witness: the quantified parts of `c5_backbone_linking` at concrete
atom indices, including the gap case with its hypothesis `9 ≠ 5 + 1`. -/
theorem c5_backbone_linking_witness :
    link_standard_residue_bonds
        [pepRes 5 1 2, pepRes 6 3 4, pepRes 7 5 6] = [(1, 4), (3, 6)] ∧
    link_standard_residue_bonds [pepRes 5 1 2, pepRes 9 3 4] = [] ∧
    link_standard_residue_bonds [nucRes 3 10, nucResP 4 20 21] = [(10, 21)] :=
  ⟨c5_backbone_linking.1 1 2 3 4 5 6,
   c5_backbone_linking.2.2.2.1 5 9 1 2 3 4 (by decide),
   c5_backbone_linking.2.2.2.2 3 10 20 21⟩

/-! ## Frame-boundary scanners: `GROFormat::forward` and `SDFFormat::forward`

The line-oriented stream is a list of lines plus a cursor; `readline` /
`skiplines` fail (`FileError`) when not enough lines remain.  The numeric
parser `parse<size_t>` lives outside this repository's sources, so the
scanners are parameterized by an arbitrary `parse : String → Option ℕ`
(`none` models a thrown non-file `Error`).
-/

/-- `file_->readline()`: the next line and advanced cursor, or `FileError`. -/
def readlineM (lines : List String) (c : ℕ) : Option (String × ℕ) :=
  match lines.get? c with
  | some l => some (l, c + 1)
  | none => none

/-- `file_->skiplines(n)`: the advanced cursor, or `FileError`. -/
def skiplinesM (lines : List String) (c n : ℕ) : Option ℕ :=
  if c + n ≤ lines.length then some (c + n) else none

/-- `GROFormat::forward` (`src/src/formats/GRO.cpp`): skip the comment line,
read the atom count, then skip `natoms + 1` body lines.  `Except.ok none`
is the `streampos(-1)` no-more-frames sentinel, `Except.error ()` the thrown
`"not enough lines ... for GRO format"` error. -/
def groForward (parse : String → Option ℕ) (lines : List String) (c : ℕ) :
    Except Unit (Option (ℕ × ℕ)) :=
  let position := c
  match readlineM lines c with
  | none => .ok none
  | some (_, c1) =>
    match readlineM lines c1 with
    | none => .ok none
    | some (line, c2) =>
      match parse line with
      | none => .ok none
      | some natoms =>
        match skiplinesM lines c2 (natoms + 1) with
        | none => .error ()
        | some c3 => .ok (some (position, c3))

/-- The trailing `while (!eof) { if (readline() == "$$$$") break; }` search
of `SDFFormat::forward`. -/
def sdfSearchEnd (lines : List String) (c : ℕ) : ℕ :=
  if h : c < lines.length then
    if lines.get ⟨c, h⟩ = "$$$$" then c + 1 else sdfSearchEnd lines (c + 1)
  else c
termination_by lines.length - c

/-- `SDFFormat::forward` (`src/src/formats/SDF.cpp`): skip 3 junk lines,
read the counts line (shorter than 10 characters raises a `format_error`
that the `catch (const Error&)` turns into the sentinel), parse the 3-column
atom and bond counts, skip `natoms + nbonds` body lines, then scan for the
`$$$$` terminator (absence of which is not an error). -/
def sdfForward (parse : String → Option ℕ) (lines : List String) (c : ℕ) :
    Except Unit (Option (ℕ × ℕ)) :=
  let position := c
  match skiplinesM lines c 3 with
  | none => .ok none
  | some c1 =>
    match readlineM lines c1 with
    | none => .ok none
    | some (counts, c2) =>
      if counts.length < 10 then .ok none
      else
        match parse (counts.take 3), parse ((counts.drop 3).take 3) with
        | some natoms, some nbonds =>
          match skiplinesM lines c2 (natoms + nbonds) with
          | none => .error ()
          | some c3 => .ok (some (position, sdfSearchEnd lines c3))
        | _, _ => .ok none

/-- C8: once a scanner has read a frame's count field, running out of lines
while skipping the counted body lines (GRO: `natoms + 1`; SDF:
`natoms + nbonds`) is a hard format error, never the sentinel; a clean
end-of-stream before any count field is read yields the `-1` sentinel. -/
theorem c8_truncation_is_hard_error :
    (∀ (parse : String → Option ℕ) (lines : List String) (c : ℕ)
        (l : String) (natoms : ℕ),
      lines.get? (c + 1) = some l → parse l = some natoms →
      lines.length < c + 2 + (natoms + 1) →
      groForward parse lines c = .error ()) ∧
    (∀ (parse : String → Option ℕ) (lines : List String) (c : ℕ),
      lines.length ≤ c + 1 → groForward parse lines c = .ok none) ∧
    (∀ (parse : String → Option ℕ) (lines : List String) (c : ℕ)
        (l : String) (natoms nbonds : ℕ),
      lines.get? (c + 3) = some l → ¬ l.length < 10 →
      parse (l.take 3) = some natoms → parse ((l.drop 3).take 3) = some nbonds →
      lines.length < c + 4 + (natoms + nbonds) →
      sdfForward parse lines c = .error ()) ∧
    (∀ (parse : String → Option ℕ) (lines : List String) (c : ℕ),
      lines.length ≤ c + 3 → sdfForward parse lines c = .ok none) := by
  refine ⟨?_, ?_, ?_, ?_⟩
  · intro parse lines c l natoms h1 h2 h3
    have hc1 : c + 1 < lines.length := (List.get?_eq_some.mp h1).1
    have hc0 : c < lines.length := by omega
    obtain ⟨l0, hl0⟩ : ∃ l0, lines.get? c = some l0 :=
      ⟨_, List.get?_eq_get hc0⟩
    have hif : ¬ (c + 1 + 1 + (natoms + 1) ≤ lines.length) := by omega
    simp only [List.get?_eq_getElem?] at hl0 h1
    simp [groForward, readlineM, skiplinesM, hl0, h1, h2, hif]
  · intro parse lines c hlen
    rcases Nat.lt_or_ge c lines.length with hc | hc
    · obtain ⟨l0, hl0⟩ : ∃ l0, lines.get? c = some l0 :=
        ⟨_, List.get?_eq_get hc⟩
      have hc1 : lines.get? (c + 1) = none := List.get?_eq_none.mpr (by omega)
      simp only [List.get?_eq_getElem?] at hl0 hc1
      simp [groForward, readlineM, hl0, hc1]
    · have hc0 : lines.get? c = none := List.get?_eq_none.mpr (by omega)
      simp only [List.get?_eq_getElem?] at hc0
      simp [groForward, readlineM, hc0]
  · intro parse lines c l natoms nbonds h1 hlen10 h2 h3 h4
    have hc3 : c + 3 < lines.length := (List.get?_eq_some.mp h1).1
    have hif3 : c + 3 ≤ lines.length := by omega
    have hifbody : ¬ (c + 3 + 1 + (natoms + nbonds) ≤ lines.length) := by omega
    simp only [List.get?_eq_getElem?] at h1
    simp [sdfForward, readlineM, skiplinesM, hif3, h1, hlen10, h2, h3, hifbody]
  · intro parse lines c hlen
    rcases Nat.lt_or_ge lines.length (c + 3) with hc | hc
    · have hif : ¬ (c + 3 ≤ lines.length) := by omega
      simp [sdfForward, skiplinesM, hif]
    · have hif : c + 3 ≤ lines.length := by omega
      have hn : lines.get? (c + 3) = none := List.get?_eq_none.mpr (by omega)
      simp only [List.get?_eq_getElem?] at hn
      simp [sdfForward, readlineM, skiplinesM, hif, hn]

/-- C8 witness: concrete truncated and empty streams for both scanners.
The scanners are parametric in the external numeric parser, so constant
parsers stand in for `parse<size_t>`. -/
theorem c8_truncation_is_hard_error_witness :
    groForward (fun _ => some 2) ["comment", "2", "atom 1"] 0 = .error () ∧
    groForward (fun _ => some 2) [] 0 = .ok none ∧
    sdfForward (fun _ => some 2)
      ["a", "b", "c", "0123456789", "atom 1", "atom 2"] 0 = .error () ∧
    sdfForward (fun _ => some 2) ["a", "b"] 0 = .ok none := by
  have hgro := c8_truncation_is_hard_error.1 (fun _ => some 2)
    ["comment", "2", "atom 1"] 0 "2" 2 (by rfl) (by rfl) (by decide)
  have hgro2 := c8_truncation_is_hard_error.2.1 (fun _ => some 2) [] 0
    (by decide)
  have hsdf := c8_truncation_is_hard_error.2.2.1 (fun _ => some 2)
    ["a", "b", "c", "0123456789", "atom 1", "atom 2"] 0 "0123456789" 2 2
    (by rfl) (by decide) (by rfl) (by rfl) (by decide)
  have hsdf2 := c8_truncation_is_hard_error.2.2.2 (fun _ => some 2) ["a", "b"] 0
    (by decide)
  exact ⟨hgro, hgro2, hsdf, hsdf2⟩

/-! ## The `TextFormat` step-index state machine (`src/src/Format.cpp`)

The underlying file is modelled by the list of its frames' byte lengths; a
frame starts where the previous one ends.  Every `forward()` implementation
in this repository returns the stream position at its entry (or
`streampos(-1)`), and `read_next` parses the frame starting at the cursor;
both are modelled from that contract: `fwd` skips exactly one frame from a
frame boundary, `parseAt` yields the frame index starting at a boundary.
The state carries `steps_positions_`, the stream cursor, `eof_found_`, and
a ghost counter `scans` incremented whenever `scan_all` actually performs a
scan (it does not influence any behaviour; it only makes "no further full
scan is triggered" a provable statement).  The C++ `while (!file_->eof())`
loop is written with explicit fuel; `file.length + 1` rounds of fuel always
suffice (for positive frame lengths every iteration advances the cursor to
the next frame boundary, and there are at most `file.length` frames).
-/

/-- Byte offset at which frame `i` starts: sum of earlier frame lengths. -/
def frameStart (file : List ℕ) (i : ℕ) : ℕ := (file.take i).sum

/-- Total byte length of the file. -/
def fileTotal (file : List ℕ) : ℕ := file.sum

/-- The first `k` frame-start offsets. -/
def stepsOf (file : List ℕ) (k : ℕ) : List ℕ :=
  (List.range k).map (frameStart file)

/-- Frame starts from frame `k` on. -/
def startsFrom (file : List ℕ) (k : ℕ) : List ℕ :=
  (List.range' k (file.length - k)).map (frameStart file)

/-- `read_next` from position `c`: the frame index starting there and the
position after it, or a parse failure off frame boundaries / at EOF. -/
def parseAtAux : List ℕ → ℕ → ℕ → ℕ → Option (ℕ × ℕ)
  | [], _, _, _ => none
  | l :: ls, i, acc, c =>
      if c = acc then some (i, acc + l) else parseAtAux ls (i + 1) (acc + l) c

def parseAt (file : List ℕ) (c : ℕ) : Option (ℕ × ℕ) := parseAtAux file 0 0 c

/-- `forward()` from position `c`: position after the frame starting at `c`,
or `none` (the `streampos(-1)` sentinel). -/
def fwd (file : List ℕ) (c : ℕ) : Option ℕ :=
  (parseAt file c).map Prod.snd

structure TFState where
  file : List ℕ
  steps : List ℕ
  cursor : ℕ
  eofFound : Bool
  scans : ℕ

inductive TFErr where
  | noSteps (step : ℕ)
  | maxStep (step maxStep : ℕ)
  | parseFail
deriving DecidableEq

/-- The scanning loop of `TextFormat::scan_all`: while not at end of
stream, call `forward()`; stop on the sentinel, else record the position it
returned (the cursor at entry to `forward()` for every format here). -/
def scanGo : ℕ → TFState → TFState
  | 0, s => s
  | fuel + 1, s =>
    if fileTotal s.file ≤ s.cursor then s
    else
      match fwd s.file s.cursor with
      | none => s
      | some c' =>
          scanGo fuel { s with steps := s.steps ++ [s.cursor], cursor := c' }

/-- `TextFormat::scan_all`: no-op once `eof_found_` is set; otherwise scan
to end-of-stream, set `eof_found_`, and restore the position (seeking to
`steps_positions_[0]` when the scan started at position 0 and the index is
non-empty, else back to the starting position). -/
def scan_all (s : TFState) : TFState :=
  if s.eofFound then s
  else
    let before := s.cursor
    let s1 := scanGo (s.file.length + 1) s
    { s1 with
      eofFound := true
      scans := s1.scans + 1
      cursor :=
        if before = 0 ∧ s1.steps ≠ [] then s1.steps.headD 0 else before }

/-- Second half of `TextFormat::read_step`, after the conditional scan:
fail when the step is still beyond the index (empty index: "does not
contain any step", else "maximal step is N-1"); otherwise seek to the
recorded offset and parse. -/
def read_step_after (n : ℕ) (s1 : TFState) : Except TFErr ℕ × TFState :=
  if s1.steps.length ≤ n then
    if s1.steps.length = 0 then (.error (.noSteps n), s1)
    else (.error (.maxStep n (s1.steps.length - 1)), s1)
  else
    match parseAt s1.file (s1.steps.getD n 0) with
    | some (f, c') => (.ok f, { s1 with cursor := c' })
    | none => (.error .parseFail, { s1 with cursor := s1.steps.getD n 0 })

/-- `TextFormat::read_step`: scan if the step is beyond the known index,
then `read_step_after`. -/
def read_step (n : ℕ) (s : TFState) : Except TFErr ℕ × TFState :=
  read_step_after n (if s.steps.length ≤ n then scan_all s else s)

/-- `TextFormat::read`: parse at the cursor; only on success is the start
position appended to the index. -/
def read (s : TFState) : Except TFErr ℕ × TFState :=
  match parseAt s.file s.cursor with
  | some (f, c') =>
      (.ok f, { s with cursor := c', steps := s.steps ++ [s.cursor] })
  | none => (.error .parseFail, s)

/-- `TextFormat::write`: append a frame of the given length, then record
`tellg()` — the position *after* the written frame. -/
def write (s : TFState) (len : ℕ) : TFState :=
  let file' := s.file ++ [len]
  { s with
    file := file'
    cursor := fileTotal file'
    steps := s.steps ++ [fileTotal file'] }

/-- `TextFormat::nsteps`: scan, then return the index length. -/
def nsteps (s : TFState) : ℕ × TFState :=
  let s1 := scan_all s
  (s1.steps.length, s1)

/-- A freshly opened handle: empty index, cursor at 0, nothing scanned. -/
def initTF (file : List ℕ) : TFState :=
  { file := file, steps := [], cursor := 0, eofFound := false, scans := 0 }

inductive TFOp where
  | read
  | write (len : ℕ)
  | readStep (n : ℕ)
  | nsteps

def applyOp (s : TFState) : TFOp → TFState
  | .read => (Chemfiles.read s).2
  | .write l => Chemfiles.write s l
  | .readStep n => (Chemfiles.read_step n s).2
  | .nsteps => (Chemfiles.nsteps s).2

def runOps (s : TFState) (ops : List TFOp) : TFState := ops.foldl applyOp s

/-- Consistency of a read handle after `k` purely sequential reads: the
index holds the first `k` frame starts, the cursor sits at the end of frame
`k - 1`, and `eof_found_` implies everything was discovered. -/
def TFWF (s : TFState) (k : ℕ) : Prop :=
  k ≤ s.file.length ∧
  s.steps = stepsOf s.file k ∧
  s.cursor = frameStart s.file k ∧
  (s.eofFound = true → k = s.file.length)

lemma frameStart_length (file : List ℕ) :
    frameStart file file.length = fileTotal file := by
  simp [frameStart, fileTotal]

lemma sum_take_le_sum (l : List ℕ) (n : ℕ) : (l.take n).sum ≤ l.sum := by
  induction l generalizing n with
  | nil => simp
  | cons a t ih =>
      cases n with
      | zero => simp
      | succ n' =>
          simp only [List.take_succ_cons, List.sum_cons]
          have := ih n'
          omega

lemma frameStart_mono (file : List ℕ) {i j : ℕ} (h : i ≤ j) :
    frameStart file i ≤ frameStart file j := by
  unfold frameStart
  have htt : file.take i = (file.take j).take i := by
    rw [List.take_take]
    congr 1
    omega
  rw [htt]
  exact sum_take_le_sum _ _

lemma frameStart_succ (file : List ℕ) (k : ℕ) (hk : k < file.length) :
    frameStart file (k + 1) = frameStart file k + file.getD k 0 := by
  unfold frameStart
  rw [List.sum_take_succ file k hk, List.getD_eq_getElem file 0 hk]

lemma frameStart_lt (file : List ℕ) (hpos : ∀ l ∈ file, 0 < l) {i j : ℕ}
    (hij : i < j) (hj : j ≤ file.length) :
    frameStart file i < frameStart file j := by
  have hi : i < file.length := by omega
  have h1 := frameStart_succ file i hi
  have hmem : file.getD i 0 ∈ file := by
    rw [List.getD_eq_getElem file 0 hi]
    exact List.getElem_mem hi
  have hp := hpos _ hmem
  have h2 : frameStart file (i + 1) ≤ frameStart file j :=
    frameStart_mono file (by omega)
  omega

lemma frameStart_lt_total (file : List ℕ) (hpos : ∀ l ∈ file, 0 < l)
    {k : ℕ} (hk : k < file.length) : frameStart file k < fileTotal file := by
  rw [← frameStart_length]
  exact frameStart_lt file hpos hk le_rfl

lemma parseAtAux_boundary (ls : List ℕ) (hpos : ∀ l ∈ ls, 0 < l) :
    ∀ (k i acc : ℕ), k < ls.length →
      parseAtAux ls i acc (acc + (ls.take k).sum) =
        some (i + k, acc + (ls.take (k + 1)).sum) := by
  induction ls with
  | nil =>
      intro k i acc hk
      simp at hk
  | cons l t ih =>
      intro k i acc hk
      cases k with
      | zero => simp [parseAtAux, List.take_succ_cons]
      | succ k' =>
          have hl : 0 < l := hpos l (by simp)
          have hne : acc + ((l :: t).take (k' + 1)).sum ≠ acc := by
            simp only [List.take_succ_cons, List.sum_cons]
            omega
          unfold parseAtAux
          rw [if_neg hne]
          have ht : ∀ m ∈ t, 0 < m := fun m hm => hpos m (by simp [hm])
          have hrec := ih ht k' (i + 1) (acc + l) (by simpa using hk)
          have e1 : acc + ((l :: t).take (k' + 1)).sum =
              acc + l + (t.take k').sum := by
            simp only [List.take_succ_cons, List.sum_cons]
            omega
          have e2 : acc + ((l :: t).take (k' + 1 + 1)).sum =
              acc + l + (t.take (k' + 1)).sum := by
            simp only [List.take_succ_cons, List.sum_cons]
            omega
          have e3 : i + (k' + 1) = i + 1 + k' := by omega
          rw [e1, e2, e3]
          exact hrec

lemma parseAtAux_past (ls : List ℕ) (hpos : ∀ l ∈ ls, 0 < l) :
    ∀ (i acc c : ℕ), acc + ls.sum ≤ c → parseAtAux ls i acc c = none := by
  induction ls with
  | nil => intro i acc c _; rfl
  | cons l t ih =>
      intro i acc c h
      have hl : 0 < l := hpos l (by simp)
      simp only [List.sum_cons] at h
      unfold parseAtAux
      rw [if_neg (by omega)]
      exact ih (fun m hm => hpos m (by simp [hm])) (i + 1) (acc + l) c (by omega)

lemma parseAt_frameStart (file : List ℕ) (hpos : ∀ l ∈ file, 0 < l)
    (k : ℕ) (hk : k < file.length) :
    parseAt file (frameStart file k) = some (k, frameStart file (k + 1)) := by
  have := parseAtAux_boundary file hpos k 0 0 hk
  simpa [parseAt, frameStart] using this

lemma parseAt_eof (file : List ℕ) (hpos : ∀ l ∈ file, 0 < l) (c : ℕ)
    (hc : fileTotal file ≤ c) : parseAt file c = none :=
  parseAtAux_past file hpos 0 0 c (by simpa [fileTotal] using hc)

lemma stepsOf_length (file : List ℕ) (k : ℕ) : (stepsOf file k).length = k := by
  simp [stepsOf]

lemma stepsOf_succ (file : List ℕ) (k : ℕ) :
    stepsOf file (k + 1) = stepsOf file k ++ [frameStart file k] := by
  simp [stepsOf, List.range_succ]

lemma stepsOf_getD (file : List ℕ) (k i : ℕ) (hi : i < k) :
    (stepsOf file k).getD i 0 = frameStart file i := by
  have hlen : i < (stepsOf file k).length := by
    rw [stepsOf_length]
    exact hi
  rw [List.getD_eq_getElem _ _ hlen]
  simp [stepsOf]

lemma stepsOf_append_startsFrom (file : List ℕ) (k : ℕ) (hk : k ≤ file.length) :
    stepsOf file k ++ startsFrom file k = stepsOf file file.length := by
  unfold stepsOf startsFrom
  rw [← List.map_append]
  congr 1
  rw [List.range_eq_range', List.range_eq_range']
  have h1 := List.range'_append 0 k (file.length - k) 1
  simp only [Nat.one_mul, Nat.zero_add] at h1
  rw [h1]
  congr 1
  omega

lemma startsFrom_cons (file : List ℕ) (k : ℕ) (hk : k < file.length) :
    startsFrom file k = frameStart file k :: startsFrom file (k + 1) := by
  unfold startsFrom
  have h1 : file.length - k = (file.length - (k + 1)) + 1 := by omega
  rw [h1, List.range'_succ]
  simp

lemma startsFrom_length_nil (file : List ℕ) :
    startsFrom file file.length = [] := by
  simp [startsFrom]

lemma stepsOf_headD (file : List ℕ) (h : 0 < file.length) :
    (stepsOf file file.length).headD 0 = 0 := by
  unfold stepsOf
  cases hh : file.length with
  | zero => omega
  | succ n =>
      rw [List.range_eq_range', List.range'_succ]
      simp [frameStart]

end Chemfiles

namespace Chemfiles

lemma scanGo_steps_append : ∀ (fuel : ℕ) (s : TFState),
    ∃ t, (scanGo fuel s).steps = s.steps ++ t := by
  intro fuel
  induction fuel with
  | zero => intro s; exact ⟨[], by simp [scanGo]⟩
  | succ n ih =>
      intro s
      unfold scanGo
      by_cases h1 : fileTotal s.file ≤ s.cursor
      · rw [if_pos h1]
        exact ⟨[], by simp⟩
      · rw [if_neg h1]
        cases hf : fwd s.file s.cursor with
        | none => simp only [hf]; exact ⟨[], by simp⟩
        | some cn =>
            simp only [hf]
            obtain ⟨t, ht⟩ :=
              ih { s with steps := s.steps ++ [s.cursor], cursor := cn }
            exact ⟨[s.cursor] ++ t, by rw [ht]; simp⟩

lemma scanGo_fields : ∀ (fuel : ℕ) (s : TFState),
    (scanGo fuel s).file = s.file ∧
    (scanGo fuel s).eofFound = s.eofFound ∧
    (scanGo fuel s).scans = s.scans := by
  intro fuel
  induction fuel with
  | zero => intro s; simp [scanGo]
  | succ n ih =>
      intro s
      unfold scanGo
      by_cases h1 : fileTotal s.file ≤ s.cursor
      · rw [if_pos h1]; simp
      · rw [if_neg h1]
        cases hf : fwd s.file s.cursor with
        | none => simp only [hf]; simp
        | some cn =>
            simp only [hf]
            exact ih { s with steps := s.steps ++ [s.cursor], cursor := cn }

lemma scanGo_spec (file : List ℕ) (hpos : ∀ l ∈ file, 0 < l) :
    ∀ (fuel k : ℕ) (s : TFState), s.file = file →
      s.cursor = frameStart file k → k ≤ file.length →
      file.length - k < fuel →
      scanGo fuel s =
        { s with steps := s.steps ++ startsFrom file k,
                 cursor := fileTotal file } := by
  intro fuel
  induction fuel with
  | zero => intro k s _ _ _ hf; omega
  | succ n ih =>
      intro k s hsf hsc hk hfuel
      by_cases hend : k = file.length
      · subst hend
        have hc : fileTotal s.file ≤ s.cursor := by
          rw [hsf, hsc, frameStart_length]
        have h2 : s.cursor = fileTotal file := by
          rw [hsc, frameStart_length]
        unfold scanGo
        rw [if_pos hc]
        rw [startsFrom_length_nil]
        cases s
        simp only at h2
        simp [h2]
      · have hklt : k < file.length := by omega
        have hcur : ¬ (fileTotal s.file ≤ s.cursor) := by
          rw [hsf, hsc]
          have := frameStart_lt_total file hpos hklt
          omega
        unfold scanGo
        rw [if_neg hcur]
        have hfwd : fwd s.file s.cursor = some (frameStart file (k + 1)) := by
          rw [hsf, hsc]
          unfold fwd
          rw [parseAt_frameStart file hpos k hklt]
          rfl
        simp only [hfwd]
        have hrec := ih (k + 1)
          { s with steps := s.steps ++ [s.cursor],
                   cursor := frameStart file (k + 1) }
          (by simpa using hsf) (by simp) (by omega) (by omega)
        rw [hrec]
        cases s
        simp only at hsc
        simp [startsFrom_cons file k hklt, hsc]

lemma scan_all_spec (s : TFState) (k : ℕ) (hpos : ∀ l ∈ s.file, 0 < l)
    (hWF : TFWF s k) :
    scan_all s =
      { s with steps := stepsOf s.file s.file.length,
               eofFound := true,
               scans := if s.eofFound then s.scans else s.scans + 1 } := by
  obtain ⟨hk, hsteps, hcursor, heof⟩ := hWF
  by_cases he : s.eofFound = true
  · have hkl := heof he
    unfold scan_all
    rw [if_pos he]
    cases s
    simp only at hsteps hkl he ⊢
    subst hkl
    simp [he, hsteps]
  · unfold scan_all
    rw [if_neg he]
    have hgo := scanGo_spec s.file hpos (s.file.length + 1) k s rfl hcursor hk
      (by omega)
    simp only [hgo]
    have hsteps2 : s.steps ++ startsFrom s.file k = stepsOf s.file s.file.length := by
      rw [hsteps]
      exact stepsOf_append_startsFrom s.file k hk
    by_cases hb : s.cursor = 0 ∧ s.steps ++ startsFrom s.file k ≠ []
    · have hlenpos : 0 < s.file.length := by
        rcases hb with ⟨_, hne⟩
        by_contra hzero
        have hf0 : s.file.length = 0 := by omega
        rw [hsteps2, stepsOf] at hne
        rw [hf0] at hne
        simp at hne
      have hhead : (s.steps ++ startsFrom s.file k).headD 0 = 0 := by
        rw [hsteps2]
        exact stepsOf_headD s.file hlenpos
      cases s
      simp only at hsteps2 hb hhead he ⊢
      rw [if_pos hb, hhead, hb.1]
      simp [hsteps2, he]
    · cases s
      simp only at hsteps2 hb he ⊢
      rw [if_neg hb]
      simp [hsteps2, he]

end Chemfiles

namespace Chemfiles

lemma scan_all_steps_append (s : TFState) :
    ∃ t, (scan_all s).steps = s.steps ++ t := by
  unfold scan_all
  by_cases he : s.eofFound = true
  · rw [if_pos he]
    exact ⟨[], by simp⟩
  · rw [if_neg he]
    obtain ⟨t, ht⟩ := scanGo_steps_append (s.file.length + 1) s
    exact ⟨t, by simp [ht]⟩

lemma read_step_after_snd_steps (n : ℕ) (s1 : TFState) :
    (read_step_after n s1).2.steps = s1.steps := by
  unfold read_step_after
  by_cases h2 : s1.steps.length ≤ n
  · rw [if_pos h2]
    split <;> rfl
  · rw [if_neg h2]
    cases hp : parseAt s1.file (s1.steps.getD n 0) with
    | none => simp [hp]
    | some fc => cases fc; simp [hp]

lemma read_step_steps_append (n : ℕ) (s : TFState) :
    ∃ t, (read_step n s).2.steps = s.steps ++ t := by
  unfold read_step
  rw [read_step_after_snd_steps]
  split
  · exact scan_all_steps_append s
  · exact ⟨[], by simp⟩

lemma nsteps_snd (s : TFState) : (nsteps s).2 = scan_all s := rfl

lemma applyOp_steps_append (s : TFState) (op : TFOp) :
    ∃ t, (applyOp s op).steps = s.steps ++ t := by
  cases op with
  | read =>
      unfold applyOp Chemfiles.read
      cases hp : parseAt s.file s.cursor with
      | none => simp only [hp]; exact ⟨[], by simp⟩
      | some fc =>
          obtain ⟨f, c2⟩ := fc
          simp only [hp]
          exact ⟨[s.cursor], rfl⟩
  | write l =>
      exact ⟨[fileTotal (s.file ++ [l])], by simp [applyOp, write]⟩
  | readStep n => exact read_step_steps_append n s
  | nsteps =>
      have h : (applyOp s TFOp.nsteps) = scan_all s := rfl
      rw [h]
      exact scan_all_steps_append s

lemma runOps_steps_append (s : TFState) (ops : List TFOp) :
    ∃ t, (runOps s ops).steps = s.steps ++ t := by
  induction ops generalizing s with
  | nil => exact ⟨[], by simp [runOps]⟩
  | cons op rest ih =>
      obtain ⟨t1, h1⟩ := applyOp_steps_append s op
      obtain ⟨t2, h2⟩ := ih (applyOp s op)
      refine ⟨t1 ++ t2, ?_⟩
      unfold runOps at h2 ⊢
      rw [List.foldl_cons, h2, h1, List.append_assoc]

lemma readSeq (file : List ℕ) (hpos : ∀ l ∈ file, 0 < l) :
    ∀ k, k ≤ file.length →
      runOps (initTF file) (List.replicate k TFOp.read) =
        { file := file, steps := stepsOf file k, cursor := frameStart file k,
          eofFound := false, scans := 0 } := by
  intro k
  induction k with
  | zero =>
      intro _
      rfl
  | succ k2 ih =>
      intro hk
      rw [List.replicate_succ']
      unfold runOps
      rw [List.foldl_append]
      have hih := ih (by omega)
      unfold runOps at hih
      rw [hih]
      simp only [List.foldl_cons, List.foldl_nil]
      unfold applyOp Chemfiles.read
      have hp := parseAt_frameStart file hpos k2 (by omega)
      simp only [hp]
      simp [stepsOf_succ]

lemma stepsOf_pairwise (file : List ℕ) (hpos : ∀ l ∈ file, 0 < l)
    (k : ℕ) (hk : k ≤ file.length) :
    List.Pairwise (· < ·) (stepsOf file k) := by
  unfold stepsOf
  rw [List.pairwise_map]
  refine List.Pairwise.imp_of_mem ?_ (List.pairwise_lt_range k)
  intro a b ha hb hab
  exact frameStart_lt file hpos hab (by have := List.mem_range.mp hb; omega)

end Chemfiles

namespace Chemfiles

/-! ## Claim theorems: the TextFormat index (C1, C2, C7, C9) -/

/-- C1: for a handle in a consistent sequential state on a file holding `N`
frames, `read_step n` with `n ≥ N` fails, reporting "does not contain any
step" when the discovered index is empty (`N = 0`) and the maximal valid
step `N - 1` otherwise; no frame is produced. -/
theorem c1_read_step_out_of_range (s : TFState) (k n : ℕ)
    (hpos : ∀ l ∈ s.file, 0 < l) (hWF : TFWF s k) (hn : s.file.length ≤ n) :
    (read_step n s).1 =
      .error (if s.file.length = 0 then TFErr.noSteps n
              else TFErr.maxStep n (s.file.length - 1)) := by
  obtain ⟨hk, hsteps, hcursor, heof⟩ := hWF
  have hlen : s.steps.length = k := by rw [hsteps, stepsOf_length]
  have hcond : s.steps.length ≤ n := by omega
  unfold read_step
  rw [if_pos hcond]
  rw [scan_all_spec s k hpos ⟨hk, hsteps, hcursor, heof⟩]
  unfold read_step_after
  simp only [stepsOf_length]
  rw [if_pos hn]
  by_cases h0 : s.file.length = 0
  · simp [h0]
  · simp [h0]

/-- C1 witness: a fresh two-frame handle rejects step 2 naming maximal
step 1; a fresh empty handle rejects step 0 with "no steps". -/
theorem c1_read_step_out_of_range_witness :
    (read_step 2 (initTF [2, 3])).1 = .error (TFErr.maxStep 2 1) ∧
    (read_step 0 (initTF [])).1 = .error (TFErr.noSteps 0) := by
  have h1 := c1_read_step_out_of_range (initTF [2, 3]) 0 2 (by decide)
    (by constructor <;> simp [initTF, stepsOf, frameStart]) (by decide)
  have h2 := c1_read_step_out_of_range (initTF []) 0 0 (by decide)
    (by constructor <;> simp [initTF, stepsOf, frameStart]) (by decide)
  refine ⟨?_, ?_⟩
  · rw [h1]; rfl
  · rw [h2]; rfl

/-- C2 counterexample: on a two-frame file (frame lengths 3 and 4), the
sequence `read(); nsteps(); read()` leaves the index `[0, 3, 3]` — the
second sequential `read` re-appends the offset of frame 1, which the
preceding scan had already recorded, so the recorded sequence is not
strictly increasing (and the index no longer has one entry per frame). -/
theorem c2_counterexample :
    (runOps (initTF [3, 4]) [TFOp.read, TFOp.nsteps, TFOp.read]).steps =
      [0, 3, 3] ∧
    ¬ List.Pairwise (· < ·)
      (runOps (initTF [3, 4]) [TFOp.read, TFOp.nsteps, TFOp.read]).steps := by
  refine ⟨by decide, ?_⟩
  intro h
  rw [show (runOps (initTF [3, 4]) [TFOp.read, TFOp.nsteps, TFOp.read]).steps =
      [0, 3, 3] by decide] at h
  simp at h

/-- C2 (amended): across any sequence of `read`, `read_step`, `write` and
`nsteps` operations the frame-offset index is append-only — an entry once
recorded is never modified or removed, only new entries appended; offsets
recorded by a *purely sequential* run of `read()` from a fresh handle are
strictly increasing and offset `i` is a position from which frame `i` is
independently re-parsed.  (After a scan has populated the index, a further
sequential `read()` re-appends an already-recorded offset, so strict
increase does not extend to arbitrary mixed sequences.) -/
theorem c2_index_append_only :
    (∀ (s : TFState) (op : TFOp), ∃ t, (applyOp s op).steps = s.steps ++ t) ∧
    (∀ (s : TFState) (ops : List TFOp),
      ∃ t, (runOps s ops).steps = s.steps ++ t) ∧
    (∀ (file : List ℕ), (∀ l ∈ file, 0 < l) → ∀ k, k ≤ file.length →
      (runOps (initTF file) (List.replicate k TFOp.read)).steps =
        stepsOf file k ∧
      List.Pairwise (· < ·) (stepsOf file k) ∧
      (∀ i, i < k → parseAt file ((stepsOf file k).getD i 0) =
          some (i, frameStart file (i + 1)))) := by
  refine ⟨applyOp_steps_append, runOps_steps_append, ?_⟩
  intro file hpos k hk
  refine ⟨by rw [readSeq file hpos k hk], stepsOf_pairwise file hpos k hk, ?_⟩
  intro i hi
  rw [stepsOf_getD file k i hi]
  exact parseAt_frameStart file hpos i (by omega)

/-- C2 witness: the append-only and sequential-read parts instantiated on
concrete handles. -/
theorem c2_index_append_only_witness :
    (∃ t, (applyOp (initTF [3, 4]) TFOp.nsteps).steps = [] ++ t) ∧
    (runOps (initTF [2, 3]) (List.replicate 2 TFOp.read)).steps =
      stepsOf [2, 3] 2 ∧
    parseAt [2, 3] ((stepsOf [2, 3] 2).getD 1 0) = some (1, frameStart [2, 3] 2) :=
  ⟨c2_index_append_only.1 (initTF [3, 4]) TFOp.nsteps,
   (c2_index_append_only.2.2 [2, 3] (by decide) 2 (by decide)).1,
   (c2_index_append_only.2.2 [2, 3] (by decide) 2 (by decide)).2.2 1 (by decide)⟩

/-- C7: once `eof_found_` is set a further scan is a no-op leaving the
whole state (index and stream position included) unchanged; and from a
consistent state, after `nsteps()` returns `N`, every `read_step i` with
`i < N` succeeds — returning frame `i` — without triggering another full
scan (the ghost scan counter and the index are unchanged). -/
theorem c7_scan_idempotent_indexed_reads :
    (∀ s : TFState, s.eofFound = true → scan_all s = s) ∧
    (∀ (s : TFState) (k : ℕ), (∀ l ∈ s.file, 0 < l) → TFWF s k →
      (nsteps s).1 = s.file.length ∧
      (∀ i, i < (nsteps s).1 →
        (read_step i (nsteps s).2).1 = .ok i ∧
        (read_step i (nsteps s).2).2.scans = (nsteps s).2.scans ∧
        (read_step i (nsteps s).2).2.steps = (nsteps s).2.steps)) := by
  constructor
  · intro s h
    unfold scan_all
    rw [if_pos h]
  · intro s k hpos hWF
    have hspec := scan_all_spec s k hpos hWF
    have hsnd : (nsteps s).2 = scan_all s := rfl
    have hfst : (nsteps s).1 = (scan_all s).steps.length := rfl
    have hlen : (scan_all s).steps.length = s.file.length := by
      rw [hspec]
      exact stepsOf_length s.file s.file.length
    constructor
    · rw [hfst, hlen]
    · intro i hi
      rw [hfst, hlen] at hi
      rw [hsnd]
      have hfile : (scan_all s).file = s.file := by rw [hspec]
      have hsteps : (scan_all s).steps = stepsOf s.file s.file.length := by
        rw [hspec]
      have hnoscan : ¬ ((scan_all s).steps.length ≤ i) := by
        rw [hlen]; omega
      unfold read_step
      rw [if_neg hnoscan]
      unfold read_step_after
      rw [if_neg hnoscan]
      have hoff : (scan_all s).steps.getD i 0 = frameStart s.file i := by
        rw [hsteps]
        exact stepsOf_getD s.file s.file.length i hi
      have hparse : parseAt (scan_all s).file ((scan_all s).steps.getD i 0) =
          some (i, frameStart s.file (i + 1)) := by
        rw [hfile, hoff]
        exact parseAt_frameStart s.file hpos i hi
      rw [hparse]
      simp

/-- C7 witness: a no-op scan on an already-scanned handle, and an indexed
read after `nsteps` on a fresh two-frame handle. -/
theorem c7_scan_idempotent_indexed_reads_witness :
    scan_all { file := [2], steps := [0], cursor := 2, eofFound := true,
               scans := 1 } =
      { file := [2], steps := [0], cursor := 2, eofFound := true,
        scans := 1 } ∧
    (nsteps (initTF [2, 3])).1 = [2, 3].length ∧
    (read_step 1 (nsteps (initTF [2, 3])).2).1 = .ok 1 := by
  have hWF : TFWF (initTF [2, 3]) 0 := by
    constructor <;> simp [initTF, stepsOf, frameStart]
  have h2 := c7_scan_idempotent_indexed_reads.2 (initTF [2, 3]) 0
    (by decide) hWF
  refine ⟨c7_scan_idempotent_indexed_reads.1 _ rfl, h2.1, ?_⟩
  have h3 := h2.2 1 (by rw [h2.1]; decide)
  exact h3.1

/-- C9: when parsing the next frame fails during a sequential
`TextFormat::read`, the frame-offset index is exactly as before the call:
the failed frame's start offset is not recorded. -/
theorem c9_read_failure_preserves_index (s : TFState)
    (h : parseAt s.file s.cursor = none) :
    (Chemfiles.read s).1 = .error TFErr.parseFail ∧
    (Chemfiles.read s).2.steps = s.steps := by
  unfold Chemfiles.read
  simp [h]

/-- C9 witness: a read from a mid-frame position fails and records
nothing. -/
theorem c9_read_failure_preserves_index_witness :
    parseAt ([2] : List ℕ) 1 = none ∧
    (Chemfiles.read { file := [2], steps := [0], cursor := 1,
                      eofFound := false, scans := 0 }).2.steps = [0] :=
  ⟨by decide,
   (c9_read_failure_preserves_index
     { file := [2], steps := [0], cursor := 1, eofFound := false, scans := 0 }
     (by decide)).2⟩

end Chemfiles

namespace Chemfiles

/-! ## LAMMPS data: `guess_molecules` (connected-component grouping)

Embedding of `guess_molecules` (`src/src/formats/LAMMPSData.cpp`): start
with each atom in its own molecule, merge along each bond by relabelling
every occurrence of the larger of the two current ids to the smaller, then
compact the surviving raw ids to dense ids in first-occurrence order using
an (unordered) map from raw id to its insertion rank, modelled as an
association list.
-/

/-- One iteration of the bond loop: full relabelling of the larger id. -/
def unionStep (molids : List ℕ) (bond : ℕ × ℕ) : List ℕ :=
  let vi := molids.getD bond.1 0
  let vj := molids.getD bond.2 0
  let new_id := if vi > vj then vj else vi
  let old_id := if vi > vj then vi else vj
  molids.map (fun m => if m = old_id then new_id else m)

/-- The union phase: fold over the bond list from ids `0 .. n-1`. -/
def unionPhase (n : ℕ) (bonds : List (ℕ × ℕ)) : List ℕ :=
  bonds.foldl unionStep (List.range n)

/-- `molids_mapping.find(...)` on the association-list model. -/
def lookupRank (mapping : List (ℕ × ℕ)) (v : ℕ) : Option ℕ :=
  (mapping.find? (fun p => p.1 == v)).map Prod.snd

/-- The compaction loop: known ids keep their rank, unseen ids get the next
dense rank (`molids_mapping.size()`). -/
def compactGo : List (ℕ × ℕ) → List ℕ → List ℕ
  | _, [] => []
  | mapping, v :: rest =>
    match lookupRank mapping v with
    | some r => r :: compactGo mapping rest
    | none => mapping.length :: compactGo ((v, mapping.length) :: mapping) rest

/-- `guess_molecules` on a frame with `n` atoms and the given bond list. -/
def guess_molecules (n : ℕ) (bonds : List (ℕ × ℕ)) : List ℕ :=
  compactGo [] (unionPhase n bonds)

/-- First-occurrence deduplication (specification device for "dense ids in
first-appearance order"). -/
def nubFirst : List ℕ → List ℕ
  | [] => []
  | x :: xs => x :: nubFirst (xs.filter (fun y => y != x))
termination_by l => l.length
decreasing_by
  have := List.length_filter_le (fun y => y != x) xs
  simp only [List.length_cons]
  omega

/-- Atoms `x` and `y` are connected in the bond graph. -/
def Connected (bonds : List (ℕ × ℕ)) (x y : ℕ) : Prop :=
  Relation.EqvGen (fun a b => (a, b) ∈ bonds) x y

lemma getD_map_zero (l : List ℕ) (f : ℕ → ℕ) (i : ℕ) (h : i < l.length) :
    (l.map f).getD i 0 = f (l.getD i 0) := by
  have h2 : i < (l.map f).length := by simpa using h
  rw [List.getD_eq_getElem _ _ h2, List.getD_eq_getElem _ _ h, List.getElem_map]

lemma getD_mem (l : List ℕ) (i : ℕ) (h : i < l.length) : l.getD i 0 ∈ l := by
  rw [List.getD_eq_getElem _ _ h]
  exact List.getElem_mem h

lemma unionStep_length (m : List ℕ) (b : ℕ × ℕ) :
    (unionStep m b).length = m.length := by
  simp [unionStep]

lemma unionPhase_length (n : ℕ) (bonds : List (ℕ × ℕ)) :
    (unionPhase n bonds).length = n := by
  unfold unionPhase
  induction bonds using List.reverseRecOn with
  | nil => simp
  | append_singleton p b ih =>
      rw [List.foldl_append, List.foldl_cons, List.foldl_nil, unionStep_length]
      exact ih

lemma connected_nil (i j : ℕ) : Connected [] i j ↔ i = j := by
  constructor
  · intro h
    induction h with
    | rel x y hxy => simp at hxy
    | refl x => rfl
    | symm x y _ ih => omega
    | trans x y z _ _ ih1 ih2 => omega
  · intro h
    rw [h]
    exact Relation.EqvGen.refl j

lemma connected_mono (p q : List (ℕ × ℕ)) (i j : ℕ) (h : Connected p i j) :
    Connected (p ++ q) i j := by
  refine Relation.EqvGen.mono ?_ h
  intro a b hab
  exact List.mem_append_left q hab

lemma connected_symm {bonds : List (ℕ × ℕ)} {i j : ℕ} (h : Connected bonds i j) :
    Connected bonds j i := Relation.EqvGen.symm _ _ h

lemma connected_trans {bonds : List (ℕ × ℕ)} {i j k : ℕ}
    (h1 : Connected bonds i j) (h2 : Connected bonds j k) :
    Connected bonds i k := Relation.EqvGen.trans _ _ _ h1 h2

end Chemfiles

namespace Chemfiles

/-- Main invariant of the union phase: two atom ids carry the same raw
molecule id exactly when the bonds processed so far connect them. -/
lemma unionPhase_invariant (n : ℕ) (bonds : List (ℕ × ℕ))
    (hb : ∀ b ∈ bonds, b.1 < n ∧ b.2 < n) :
    ∀ i j, i < n → j < n →
      ((unionPhase n bonds).getD i 0 = (unionPhase n bonds).getD j 0 ↔
        Connected bonds i j) := by
  induction bonds using List.reverseRecOn with
  | nil =>
      intro i j hi hj
      unfold unionPhase
      simp only [List.foldl_nil]
      rw [connected_nil]
      have hgi : (List.range n).getD i 0 = i := by
        rw [List.getD_eq_getElem _ _ (by simpa using hi)]
        simp
      have hgj : (List.range n).getD j 0 = j := by
        rw [List.getD_eq_getElem _ _ (by simpa using hj)]
        simp
      rw [hgi, hgj]
  | append_singleton p b ihp =>
      intro i j hi hj
      have hbp : ∀ x ∈ p, x.1 < n ∧ x.2 < n := fun x hx =>
        hb x (List.mem_append_left _ hx)
      have hbb : b.1 < n ∧ b.2 < n := hb b (List.mem_append_right _ (by simp))
      have ih := ihp hbp
      set m := unionPhase n p with hm
      have hmlen : m.length = n := unionPhase_length n p
      have hstep : unionPhase n (p ++ [b]) = unionStep m b := by
        unfold unionPhase
        rw [List.foldl_append, List.foldl_cons, List.foldl_nil]
        rfl
      rw [hstep]
      set va := m.getD b.1 0 with hva
      set vb := m.getD b.2 0 with hvb
      set nid := if va > vb then vb else va with hnid
      set oid := if va > vb then va else vb with hoid
      have hrelbl : ∀ x, x < n → (unionStep m b).getD x 0 =
          if m.getD x 0 = oid then nid else m.getD x 0 := by
        intro x hx
        unfold unionStep
        dsimp only
        rw [← hnid, ← hoid]
        exact getD_map_zero m _ x (by omega)
      have hconn_ab : Connected (p ++ [b]) b.1 b.2 := by
        refine Relation.EqvGen.rel _ _ ?_
        apply List.mem_append_right
        simp
      have hcases : (nid = va ∧ oid = vb) ∨ (nid = vb ∧ oid = va) := by
        rw [hnid, hoid]
        by_cases hc : va > vb
        · right; rw [if_pos hc, if_pos hc]; exact ⟨rfl, rfl⟩
        · left; rw [if_neg hc, if_neg hc]; exact ⟨rfl, rfl⟩
      rw [hrelbl i hi, hrelbl j hj]
      constructor
      · intro heq
        by_cases hio : m.getD i 0 = oid <;> by_cases hjo : m.getD j 0 = oid
        · rcases hcases with ⟨hn, ho⟩ | ⟨hn, ho⟩
          · have h1 : Connected p i b.2 := (ih i b.2 hi hbb.2).mp (by rw [hio, ho])
            have h2 : Connected p j b.2 := (ih j b.2 hj hbb.2).mp (by rw [hjo, ho])
            exact connected_trans (connected_mono p [b] _ _ h1)
              (connected_symm (connected_mono p [b] _ _ h2))
          · have h1 : Connected p i b.1 := (ih i b.1 hi hbb.1).mp (by rw [hio, ho])
            have h2 : Connected p j b.1 := (ih j b.1 hj hbb.1).mp (by rw [hjo, ho])
            exact connected_trans (connected_mono p [b] _ _ h1)
              (connected_symm (connected_mono p [b] _ _ h2))
        · rw [if_pos hio, if_neg hjo] at heq
          rcases hcases with ⟨hn, ho⟩ | ⟨hn, ho⟩
          · have h1 : Connected p i b.2 := (ih i b.2 hi hbb.2).mp (by rw [hio, ho])
            have h2 : Connected p j b.1 := (ih j b.1 hj hbb.1).mp (by rw [← heq, hn])
            exact connected_trans (connected_mono p [b] _ _ h1)
              (connected_trans (connected_symm hconn_ab)
                (connected_symm (connected_mono p [b] _ _ h2)))
          · have h1 : Connected p i b.1 := (ih i b.1 hi hbb.1).mp (by rw [hio, ho])
            have h2 : Connected p j b.2 := (ih j b.2 hj hbb.2).mp (by rw [← heq, hn])
            exact connected_trans (connected_mono p [b] _ _ h1)
              (connected_trans hconn_ab
                (connected_symm (connected_mono p [b] _ _ h2)))
        · rw [if_neg hio, if_pos hjo] at heq
          rcases hcases with ⟨hn, ho⟩ | ⟨hn, ho⟩
          · have h1 : Connected p j b.2 := (ih j b.2 hj hbb.2).mp (by rw [hjo, ho])
            have h2 : Connected p i b.1 := (ih i b.1 hi hbb.1).mp (by rw [heq, hn])
            exact connected_trans (connected_mono p [b] _ _ h2)
              (connected_trans hconn_ab
                (connected_symm (connected_mono p [b] _ _ h1)))
          · have h1 : Connected p j b.1 := (ih j b.1 hj hbb.1).mp (by rw [hjo, ho])
            have h2 : Connected p i b.2 := (ih i b.2 hi hbb.2).mp (by rw [heq, hn])
            exact connected_trans (connected_mono p [b] _ _ h2)
              (connected_trans (connected_symm hconn_ab)
                (connected_symm (connected_mono p [b] _ _ h1)))
        · rw [if_neg hio, if_neg hjo] at heq
          exact connected_mono p [b] _ _ ((ih i j hi hj).mp heq)
      · intro hconn
        have hFb : (if va = oid then nid else va) =
            (if vb = oid then nid else vb) := by
          rw [hnid, hoid]
          split_ifs <;> omega
        have hresp : ∀ x y, (x, y) ∈ p ++ [b] →
            (if m.getD x 0 = oid then nid else m.getD x 0) =
            (if m.getD y 0 = oid then nid else m.getD y 0) := by
          intro x y hxy
          rcases List.mem_append.mp hxy with hxp | hxb
          · have hx := (hbp _ hxp).1
            have hy := (hbp _ hxp).2
            have hxyeq : m.getD x 0 = m.getD y 0 :=
              (ih x y hx hy).mpr (Relation.EqvGen.rel _ _ hxp)
            rw [hxyeq]
          · have hxy2 := Prod.ext_iff.mp (List.mem_singleton.mp hxb)
            obtain ⟨hx1, hy2⟩ := hxy2
            simp only at hx1 hy2
            subst hx1
            subst hy2
            rw [← hva, ← hvb]
            exact hFb
        have hFij : ∀ x y, Connected (p ++ [b]) x y →
            (if m.getD x 0 = oid then nid else m.getD x 0) =
            (if m.getD y 0 = oid then nid else m.getD y 0) := by
          intro x y hxy
          induction hxy with
          | rel a c hac => exact hresp a c hac
          | refl a => rfl
          | symm a c _ ihs => exact ihs.symm
          | trans a c d _ _ ih1 ih2 => exact ih1.trans ih2
        exact hFij i j hconn

end Chemfiles

namespace Chemfiles

lemma lookupRank_nil (v : ℕ) : lookupRank [] v = none := rfl

lemma lookupRank_cons (m : List (ℕ × ℕ)) (w r v : ℕ) :
    lookupRank ((w, r) :: m) v = if v = w then some r else lookupRank m v := by
  by_cases he : v = w
  · subst he
    rw [if_pos rfl]
    unfold lookupRank
    rw [List.find?_cons_of_pos _ (by simp)]
    rfl
  · rw [if_neg he]
    unfold lookupRank
    rw [List.find?_cons_of_neg _ (by simpa using fun hh => he hh.symm)]

/-- Ranks are below the map size and no two keys share a rank. -/
def RankInv (m : List (ℕ × ℕ)) : Prop :=
  (∀ v r, lookupRank m v = some r → r < m.length) ∧
  (∀ v w r, lookupRank m v = some r → lookupRank m w = some r → v = w)

lemma rankInv_nil : RankInv [] := by
  constructor
  · intro v r h
    simp [lookupRank_nil] at h
  · intro v w r h
    simp [lookupRank_nil] at h

lemma rankInv_extend (m : List (ℕ × ℕ)) (hm : RankInv m) (v : ℕ)
    (hv : lookupRank m v = none) : RankInv ((v, m.length) :: m) := by
  obtain ⟨hlt, hinj⟩ := hm
  constructor
  · intro w r h
    rw [lookupRank_cons] at h
    by_cases hw : w = v
    · rw [if_pos hw] at h
      simp only [Option.some.injEq] at h
      simp only [List.length_cons]
      omega
    · rw [if_neg hw] at h
      have := hlt w r h
      simp only [List.length_cons]
      omega
  · intro w u r h1 h2
    rw [lookupRank_cons] at h1 h2
    by_cases hw : w = v <;> by_cases hu : u = v
    · rw [hw, hu]
    · rw [if_pos hw] at h1
      rw [if_neg hu] at h2
      have := hlt u r h2
      simp only [Option.some.injEq] at h1
      omega
    · rw [if_neg hw] at h1
      rw [if_pos hu] at h2
      have := hlt w r h1
      simp only [Option.some.injEq] at h2
      omega
    · rw [if_neg hw] at h1
      rw [if_neg hu] at h2
      exact hinj w u r h1 h2

/-- The mapping as it stands after processing the whole list. -/
def finalMap : List (ℕ × ℕ) → List ℕ → List (ℕ × ℕ)
  | m, [] => m
  | m, v :: rest =>
    match lookupRank m v with
    | some _ => finalMap m rest
    | none => finalMap ((v, m.length) :: m) rest

lemma finalMap_stable (l : List ℕ) : ∀ (m : List (ℕ × ℕ)) (v r : ℕ),
    lookupRank m v = some r → lookupRank (finalMap m l) v = some r := by
  induction l with
  | nil => intro m v r h; exact h
  | cons x rest ih =>
      intro m v r h
      unfold finalMap
      cases hx : lookupRank m x with
      | some _ => exact ih m v r h
      | none =>
          apply ih
          have hne : v ≠ x := by
            intro he
            rw [he, hx] at h
            cases h
          rw [lookupRank_cons, if_neg hne]
          exact h

lemma finalMap_mem (l : List ℕ) : ∀ (m : List (ℕ × ℕ)) (v : ℕ), v ∈ l →
    ∃ r, lookupRank (finalMap m l) v = some r := by
  induction l with
  | nil => intro m v h; simp at h
  | cons x rest ih =>
      intro m v hv
      unfold finalMap
      cases hx : lookupRank m x with
      | some r =>
          rcases List.mem_cons.mp hv with he | hm2
          · subst he
            exact ⟨r, finalMap_stable rest m v r hx⟩
          · exact ih m v hm2
      | none =>
          rcases List.mem_cons.mp hv with he | hm2
          · subst he
            refine ⟨m.length, finalMap_stable rest _ v m.length ?_⟩
            rw [lookupRank_cons, if_pos rfl]
          · exact ih _ v hm2

lemma finalMap_rankInv (l : List ℕ) : ∀ (m : List (ℕ × ℕ)), RankInv m →
    RankInv (finalMap m l) := by
  induction l with
  | nil => intro m hm; exact hm
  | cons x rest ih =>
      intro m hm
      unfold finalMap
      cases hx : lookupRank m x with
      | some _ => exact ih m hm
      | none => exact ih _ (rankInv_extend m hm x hx)

lemma compactGo_eq_map (l : List ℕ) : ∀ (m : List (ℕ × ℕ)),
    compactGo m l = l.map (fun v => (lookupRank (finalMap m l) v).getD 0) := by
  induction l with
  | nil => intro m; rfl
  | cons v rest ih =>
      intro m
      unfold compactGo finalMap
      cases hv : lookupRank m v with
      | some r =>
          simp only
          have hst := finalMap_stable rest m v r hv
          rw [ih m]
          simp [hst]
      | none =>
          simp only
          have hself : lookupRank ((v, m.length) :: m) v = some m.length := by
            rw [lookupRank_cons, if_pos rfl]
          have hst := finalMap_stable rest _ v m.length hself
          rw [ih ((v, m.length) :: m)]
          simp [hst]

lemma compactGo_length (l : List ℕ) (m : List (ℕ × ℕ)) :
    (compactGo m l).length = l.length := by
  rw [compactGo_eq_map]
  simp

/-- Compaction preserves the equality pattern of the raw ids. -/
lemma compactGo_pattern (l : List ℕ) (i j : ℕ)
    (hi : i < l.length) (hj : j < l.length) :
    (compactGo [] l).getD i 0 = (compactGo [] l).getD j 0 ↔
      l.getD i 0 = l.getD j 0 := by
  rw [compactGo_eq_map]
  rw [getD_map_zero l _ i hi, getD_map_zero l _ j hj]
  obtain ⟨ri, hri⟩ := finalMap_mem l [] (l.getD i 0) (getD_mem l i hi)
  obtain ⟨rj, hrj⟩ := finalMap_mem l [] (l.getD j 0) (getD_mem l j hj)
  have hinv := finalMap_rankInv l [] rankInv_nil
  constructor
  · intro h
    rw [hri, hrj] at h
    simp only [Option.getD_some] at h
    subst h
    exact hinv.2 _ _ ri hri hrj
  · intro h
    rw [h]

end Chemfiles

namespace Chemfiles

/-- Values of `l` not yet known to the mapping. -/
def freshVals (m : List (ℕ × ℕ)) (l : List ℕ) : List ℕ :=
  l.filter (fun v => (lookupRank m v).isNone)

/-- Fresh values receive consecutive ranks starting at the current map
size, in first-occurrence order. -/
lemma finalMap_fresh_ranks (l : List ℕ) : ∀ (m : List (ℕ × ℕ)),
    (nubFirst (freshVals m l)).map
        (fun v => (lookupRank (finalMap m l) v).getD 0) =
      List.range' m.length (nubFirst (freshVals m l)).length := by
  induction l with
  | nil =>
      intro m
      have h1 : freshVals m [] = [] := rfl
      rw [h1]
      simp [nubFirst]
  | cons v rest ih =>
      intro m
      unfold freshVals
      rw [List.filter_cons]
      cases hv : lookupRank m v with
      | some r =>
          have hfm : finalMap m (v :: rest) = finalMap m rest := by
            simp only [finalMap, hv]
          simp only [hv, Option.isNone_some, Bool.false_eq_true, if_false, hfm]
          exact ih m
      | none =>
          have hfm : finalMap m (v :: rest) =
              finalMap ((v, m.length) :: m) rest := by
            simp only [finalMap, hv]
          simp only [hv, Option.isNone_none, if_true, hfm]
          rw [nubFirst]
          have hfresh : (List.filter (fun v2 => (lookupRank m v2).isNone) rest).filter
                (fun y => y != v) =
              freshVals ((v, m.length) :: m) rest := by
            unfold freshVals
            rw [List.filter_filter]
            apply List.filter_congr
            intro x _
            rw [lookupRank_cons]
            by_cases hxv : x = v
            · subst hxv
              simp
            · simp [hxv]
          rw [hfresh]
          have hself : lookupRank ((v, m.length) :: m) v = some m.length := by
            rw [lookupRank_cons, if_pos rfl]
          have hstab := finalMap_stable rest ((v, m.length) :: m) v
            m.length hself
          simp only [List.map_cons, List.length_cons, hstab, Option.getD_some]
          rw [ih ((v, m.length) :: m)]
          rw [List.range'_succ]
          simp

/-- `nubFirst` commutes with a map that is injective on the list. -/
lemma nubFirst_map_inj (g : ℕ → ℕ) : ∀ (l : List ℕ),
    (∀ x ∈ l, ∀ y ∈ l, g x = g y → x = y) →
    nubFirst (l.map g) = (nubFirst l).map g := by
  intro l
  induction l using nubFirst.induct with
  | case1 =>
      intro _
      simp [nubFirst]
  | case2 x xs ih =>
      intro hinj
      rw [List.map_cons, nubFirst, nubFirst]
      have hfilter : (xs.map g).filter (fun y => y != g x) =
          (xs.filter (fun y => y != x)).map g := by
        rw [List.filter_map]
        congr 1
        apply List.filter_congr
        intro y hy
        show (g y != g x) = (y != x)
        by_cases hxy : y = x
        · subst hxy
          simp
        · have hgne : g y ≠ g x := fun hg =>
            hxy (hinj y (by simp [hy]) x (by simp) hg)
          rw [bne_iff_ne.mpr hgne, bne_iff_ne.mpr hxy]
      rw [hfilter, List.map_cons]
      congr 1
      apply ih
      intro a ha b hb hg
      have ha2 := List.mem_of_mem_filter ha
      have hb2 := List.mem_of_mem_filter hb
      exact hinj a (by simp [ha2]) b (by simp [hb2]) hg

lemma freshVals_nil_map (l : List ℕ) : freshVals [] l = l := by
  unfold freshVals
  rw [List.filter_eq_self.mpr]
  intro a _
  rfl

end Chemfiles

namespace Chemfiles

/-- C6: for a frame with `n` atoms and any in-range bond list,
`guess_molecules` returns `n` molecule ids; two atoms carry the same id
exactly when they are connected in the bond graph; the ids used are exactly
`0 .. k-1` for `k` components, assigned in first-appearance order scanning
atoms by ascending index (`nubFirst r = range k`); and on 4 atoms with
bonds `{(0,1), (2,3)}` the result is `[0, 0, 1, 1]`. -/
theorem c6_guess_molecules (n : ℕ) (bonds : List (ℕ × ℕ))
    (hb : ∀ b ∈ bonds, b.1 < n ∧ b.2 < n) :
    (guess_molecules n bonds).length = n ∧
    (∀ i j, i < n → j < n →
      ((guess_molecules n bonds).getD i 0 = (guess_molecules n bonds).getD j 0 ↔
        Connected bonds i j)) ∧
    nubFirst (guess_molecules n bonds) =
      List.range (nubFirst (guess_molecules n bonds)).length ∧
    guess_molecules 4 [(0, 1), (2, 3)] = [0, 0, 1, 1] := by
  have hrawlen : (unionPhase n bonds).length = n := unionPhase_length n bonds
  have hlen : (guess_molecules n bonds).length = n := by
    unfold guess_molecules
    rw [compactGo_length, hrawlen]
  refine ⟨hlen, ?_, ?_, by decide⟩
  · intro i j hi hj
    unfold guess_molecules
    rw [compactGo_pattern (unionPhase n bonds) i j (by omega) (by omega)]
    exact unionPhase_invariant n bonds hb i j hi hj
  · unfold guess_molecules
    have hinv := finalMap_rankInv (unionPhase n bonds) [] rankInv_nil
    set raw := unionPhase n bonds with hraw
    set g := fun v => (lookupRank (finalMap [] raw) v).getD 0 with hg
    have hmap : compactGo [] raw = raw.map g := compactGo_eq_map raw []
    have hinj : ∀ x ∈ raw, ∀ y ∈ raw, g x = g y → x = y := by
      intro x hx y hy hgxy
      obtain ⟨rx, hrx⟩ := finalMap_mem raw [] x hx
      obtain ⟨ry, hry⟩ := finalMap_mem raw [] y hy
      rw [hg] at hgxy
      simp only [hrx, hry, Option.getD_some] at hgxy
      subst hgxy
      exact hinv.2 x y rx hrx hry
    rw [hmap, nubFirst_map_inj g raw hinj]
    have hS := finalMap_fresh_ranks raw []
    rw [freshVals_nil_map] at hS
    rw [← hg] at hS
    rw [hS]
    simp [List.range_eq_range']

/-- C6 witness: the theorem instantiated on the 4-atom example. -/
theorem c6_guess_molecules_witness :
    (guess_molecules 4 [(0, 1), (2, 3)]).length = 4 ∧
    ((guess_molecules 4 [(0, 1), (2, 3)]).getD 0 0 =
        (guess_molecules 4 [(0, 1), (2, 3)]).getD 1 0 ↔
      Connected [(0, 1), (2, 3)] 0 1) ∧
    guess_molecules 4 [(0, 1), (2, 3)] = [0, 0, 1, 1] :=
  ⟨(c6_guess_molecules 4 [(0, 1), (2, 3)] (by decide)).1,
   (c6_guess_molecules 4 [(0, 1), (2, 3)] (by decide)).2.1 0 1
     (by decide) (by decide),
   (c6_guess_molecules 4 [(0, 1), (2, 3)] (by decide)).2.2.2⟩

end Chemfiles
